import Mathlib

/-!
# Verification of the RAG chat server (`src/packages/webapi/server.js`)

Shallow embedding of the retrieval-augmented chat server.  JS strings are
modelled as `List Char` (one entry per code point; the source only manipulates
ASCII-safe data, where JS UTF-16 `.length` agrees with the code-point count).

Embedded pieces:
* `splitWs`        — `String.prototype.split(/\s+/)` (maximal whitespace runs;
                     an empty fragment appears when the string starts or ends
                     with whitespace, exactly as in JS).
* `chunkLoop` / `loadPDFChunks` — the greedy word-packing loop of `loadPDF`
                     (lines 69–81).
* `queryTerms`, `chunkScore`, `retrieveRelevantContent` — the lexical
                     retriever (lines 86–111).  `new RegExp(term, "gi")` is
                     modelled by `jsCountMatches`, which implements the global
                     left-to-right overlap-free scan of JS regex matching for
                     patterns made of literal characters and top-level `|`
                     alternation (the empty pattern matches at every position,
                     as in JS); regex operators other than `|` are outside the
                     model.
* `handler`        — the `/chat` request handler (lines 114–177), with the
                     external chat model, agent service and the PDF file
                     supplied as oracle parameters, and an effect trace
                     recording which external calls were issued.
-/

/-- The JS regex whitespace class `\s` (ASCII part), as used by `split(/\s+/)`. -/
def isWs (c : Char) : Bool :=
  c = ' ' || c = '\t' || c = '\n' || c = '\r' || c = '\x0b' || c = '\x0c'

/-- ASCII fragment of `String.prototype.toLowerCase`, applied character-wise. -/
def jsToLower (c : Char) : Char :=
  if 'A' ≤ c ∧ c ≤ 'Z' then Char.ofNat (c.toNat + 32) else c

/-- Split a character list at every element satisfying `p`, keeping empty
fragments (the splitting skeleton shared by `split(/\s+/)` and `|`-alternation
parsing).  `fieldsP p l` is never empty. -/
def fieldsP (p : Char → Bool) : List Char → List (List Char)
  | [] => [[]]
  | c :: cs =>
    if p c then [] :: fieldsP p cs
    else
      match fieldsP p cs with
      | [] => [[c]]
      | f :: fs => (c :: f) :: fs

/-- Fragments of a string between single whitespace characters. -/
def fields (l : List Char) : List (List Char) := fieldsP isWs l

/-- JS `String.prototype.split(/\s+/)`: split on *maximal* whitespace runs.
Interior empty fragments of `fields` (arising from consecutive whitespace
characters) disappear because the regex `\s+` is greedy; the first and last
fragments are kept even when empty (leading/trailing whitespace), exactly as
in JS. -/
def splitWs (l : List Char) : List (List Char) :=
  match fields l with
  | [] => []
  | [f] => [f]
  | f :: fs => f :: ((fs.dropLast.filter (fun w => w ≠ [])) ++ [fs.getLastD []])

/-- The whitespace-delimited token sequence of a string: its maximal nonempty
whitespace-free fragments. -/
def tokens (l : List Char) : List (List Char) :=
  (fields l).filter (fun w => w ≠ [])

/-- `CHUNK_SIZE` (line 58). -/
def CHUNK_SIZE : Nat := 800

/-- The chunking loop of `loadPDF` (lines 70–81): greedily pack whitespace
words, flushing the accumulator when appending `" " ++ word` would exceed
`CHUNK_SIZE`; the final `if (currentChunk)` push only happens for a nonempty
(JS-truthy) accumulator. -/
def chunkLoop : List (List Char) → List Char → List (List Char)
  | [], cur => if cur = [] then [] else [cur]
  | w :: ws, cur =>
    if (cur ++ ' ' :: w).length ≤ CHUNK_SIZE then
      chunkLoop ws (cur ++ (if cur = [] then [] else [' ']) ++ w)
    else
      cur :: chunkLoop ws w

/-- The chunk sequence `loadPDF` produces from a given document text
(`pdfText.split(/\s+/)` fed through the packing loop). -/
def loadPDFChunks (text : List Char) : List (List Char) :=
  chunkLoop (splitWs text) []

/-- Join chunks with a single separating space reinserted. -/
def joinSp : List (List Char) → List Char
  | [] => []
  | [c] => c
  | c :: cs => c ++ ' ' :: joinSp cs

-- ===== basic lemmas about fields / splitWs / tokens =====

theorem fieldsP_ne_nil (p : Char → Bool) (l : List Char) : fieldsP p l ≠ [] := by
  cases l with
  | nil => simp [fieldsP]
  | cons c cs =>
    unfold fieldsP
    by_cases h : p c
    · simp [h]
    · simp only [h]
      cases fieldsP p cs <;> simp

theorem fields_ne_nil (l : List Char) : fields l ≠ [] := fieldsP_ne_nil _ l

/-- Splitting at a whitespace character splits `fields`. -/
theorem fields_append_ws {c : Char} (hc : isWs c) (a b : List Char) :
    fields (a ++ c :: b) = fields a ++ fields b := by
  induction a with
  | nil =>
    simp only [List.nil_append, fields, fieldsP, hc, if_true]
    rfl
  | cons x a ih =>
    simp only [List.cons_append, fields, fieldsP] at *
    by_cases hx : isWs x
    · simp [hx, ih]
    · simp only [hx, if_false, Bool.false_eq_true, List.append_eq]
      rw [ih]
      have ha := fieldsP_ne_nil isWs a
      cases h : fieldsP isWs a with
      | nil => exact absurd h ha
      | cons f fs => simp

theorem tokens_append_ws {c : Char} (hc : isWs c) (a b : List Char) :
    tokens (a ++ c :: b) = tokens a ++ tokens b := by
  simp [tokens, fields_append_ws hc, List.filter_append]

/-- A whitespace-free string is a single field. -/
theorem fields_of_wsFree {w : List Char} (hw : ∀ ch ∈ w, ¬ isWs ch) :
    fields w = [w] := by
  induction w with
  | nil => rfl
  | cons c cs ih =>
    have hc : ¬ isWs c = true := hw c (by simp)
    have : fields cs = [cs] := ih (fun ch h => hw ch (by simp [h]))
    simp only [fields, fieldsP] at *
    simp [hc, this]

theorem tokens_of_wsFree {w : List Char} (hw : ∀ ch ∈ w, ¬ isWs ch) :
    tokens w = (if w = [] then [] else [w]) := by
  by_cases h : w = []
  · subst h; rfl
  · simp [tokens, fields_of_wsFree hw, h]

theorem tokens_nil : tokens [] = [] := rfl

/-- Every field is whitespace-free. -/
theorem wsFree_of_mem_fieldsP (p : Char → Bool) (l : List Char) :
    ∀ w ∈ fieldsP p l, ∀ ch ∈ w, ¬ p ch := by
  induction l with
  | nil => simp [fieldsP]
  | cons c cs ih =>
    unfold fieldsP
    by_cases h : p c
    · simp only [h, if_true]
      intro w hw
      rcases List.mem_cons.1 hw with rfl | hw
      · simp
      · exact ih w hw
    · simp only [h, if_false, Bool.false_eq_true]
      cases hf : fieldsP p cs with
      | nil => exact absurd hf (fieldsP_ne_nil p cs)
      | cons f fs =>
        intro w hw
        rcases List.mem_cons.1 hw with rfl | hw
        · intro ch hch
          rcases List.mem_cons.1 hch with rfl | hch
          · simpa using h
          · exact ih f (by simp [hf]) ch hch
        · exact fun ch hch => ih w (by rw [hf]; exact List.mem_cons_of_mem _ hw) ch hch

/-- Every fragment `split(/\s+/)` produces is whitespace-free. -/
theorem wsFree_of_mem_splitWs (l : List Char) :
    ∀ w ∈ splitWs l, ∀ ch ∈ w, ¬ isWs ch := by
  have hsub : ∀ w ∈ splitWs l, w = [] ∨ w ∈ fields l := by
    unfold splitWs
    cases h : fields l with
    | nil => simp
    | cons f fs =>
      cases fs with
      | nil => intro w hw; right; simpa using hw
      | cons g gs =>
        intro w hw
        rcases List.mem_cons.1 hw with rfl | hw
        · right; simp
        · rcases List.mem_append.1 hw with hw | hw
          · right
            have := List.mem_of_mem_filter hw
            exact List.mem_cons_of_mem _ ((List.dropLast_sublist (g :: gs)).mem this)
          · have hw' : w = (g :: gs).getLastD [] := by simpa using hw
            right
            rw [hw', List.getLastD_eq_getLast?,
              List.getLast?_eq_getLast _ (by simp : g :: gs ≠ [])]
            exact List.mem_cons_of_mem _ (List.getLast_mem (by simp : g :: gs ≠ []))
  intro w hw
  rcases hsub w hw with rfl | hmem
  · simp
  · exact wsFree_of_mem_fieldsP isWs l w hmem

theorem filter_filter_self (p : List Char → Bool) (l : List (List Char)) :
    (l.filter p).filter p = l.filter p := by
  induction l with
  | nil => rfl
  | cons x xs ih =>
    by_cases h : p x <;> simp [List.filter_cons, h, ih]

/-- Discarding empty fragments, `split(/\s+/)` is exactly the token sequence. -/
theorem filter_splitWs (l : List Char) :
    (splitWs l).filter (fun w => w ≠ []) = tokens l := by
  unfold splitWs tokens
  cases h : fields l with
  | nil => exact absurd h (fields_ne_nil l)
  | cons f fs =>
    cases fs with
    | nil => rfl
    | cons g gs =>
      have hne : g :: gs ≠ [] := by simp
      have key : (g :: gs).dropLast ++ [(g :: gs).getLastD []] = g :: gs := by
        rw [List.getLastD_eq_getLast?, List.getLast?_eq_getLast _ hne]
        exact List.dropLast_append_getLast hne
      conv_rhs => rw [← key]
      simp only [List.filter_cons, List.filter_append, filter_filter_self]

-- ===== chunker lemmas =====

/-- Invariant of the packing loop: every emitted chunk either satisfies the
size bound or is one of the available words (the accumulator is only ever
grown under the bound or reset to a bare word). -/
theorem chunkLoop_mem (W : List (List Char)) :
    ∀ (ws : List (List Char)) (cur : List Char),
      (∀ w ∈ ws, w ∈ W) → (cur.length ≤ CHUNK_SIZE ∨ cur ∈ W) →
      ∀ c ∈ chunkLoop ws cur, c.length ≤ CHUNK_SIZE ∨ c ∈ W := by
  intro ws
  induction ws with
  | nil =>
    intro cur _ hcur c hc
    by_cases h : cur = []
    · simp [chunkLoop, h] at hc
    · simp only [chunkLoop, h, if_false, List.mem_singleton] at hc
      subst hc; exact hcur
  | cons w ws ih =>
    intro cur hws hcur c hc
    unfold chunkLoop at hc
    by_cases hlen : (cur ++ ' ' :: w).length ≤ CHUNK_SIZE
    · rw [if_pos hlen] at hc
      refine ih _ (fun v hv => hws v (List.mem_cons_of_mem _ hv)) (Or.inl ?_) c hc
      by_cases hce : cur = []
      · subst hce
        simp at hlen ⊢
        omega
      · simp [hce, List.length_append] at hlen ⊢
        omega
    · rw [if_neg hlen] at hc
      rcases List.mem_cons.1 hc with rfl | hc
      · exact hcur
      · exact ih w (fun v hv => hws v (List.mem_cons_of_mem _ hv))
          (Or.inr (hws w (List.mem_cons_self _ _))) c hc

theorem tokens_joinSp_cons (c : List Char) (cs : List (List Char)) :
    tokens (joinSp (c :: cs)) = tokens c ++ tokens (joinSp cs) := by
  cases cs with
  | nil => simp [joinSp, tokens_nil]
  | cons d ds =>
    show tokens (c ++ ' ' :: joinSp (d :: ds)) = _
    exact tokens_append_ws (by decide) c (joinSp (d :: ds))

/-- The packing loop loses no word and invents none: joining its output with
single spaces has exactly the pending accumulator tokens followed by the
remaining nonempty words. -/
theorem chunkLoop_tokens :
    ∀ (ws : List (List Char)) (cur : List Char),
      (∀ w ∈ ws, ∀ ch ∈ w, ¬ isWs ch) →
      tokens (joinSp (chunkLoop ws cur)) =
        tokens cur ++ ws.filter (fun w => w ≠ []) := by
  intro ws
  induction ws with
  | nil =>
    intro cur _
    by_cases h : cur = []
    · subst h; simp [chunkLoop, joinSp, tokens_nil]
    · simp [chunkLoop, h, joinSp]
  | cons w ws ih =>
    intro cur hws
    have hwfree : ∀ ch ∈ w, ¬ isWs ch := hws w (List.mem_cons_self _ _)
    have hw := tokens_of_wsFree hwfree
    have htail : ∀ v ∈ ws, ∀ ch ∈ v, ¬ isWs ch :=
      fun v hv => hws v (List.mem_cons_of_mem _ hv)
    unfold chunkLoop
    by_cases hlen : (cur ++ ' ' :: w).length ≤ CHUNK_SIZE
    · rw [if_pos hlen, ih _ htail]
      by_cases hce : cur = []
      · subst hce
        by_cases hwe : w = [] <;>
          simp [hwe, List.filter_cons, hw, tokens_nil]
      · have harm : cur ++ (if cur = [] then [] else [' ']) ++ w = cur ++ ' ' :: w := by
          simp [hce]
        rw [harm, tokens_append_ws (by decide)]
        by_cases hwe : w = [] <;>
          simp [hwe, List.filter_cons, hw, List.append_assoc, tokens_nil]
    · rw [if_neg hlen, tokens_joinSp_cons, ih w htail]
      by_cases hwe : w = [] <;> simp [hwe, List.filter_cons, hw, tokens_nil]

-- ===== C1 / C2 =====

/-- C1: every chunk `loadPDF` produces from a document text is within
`CHUNK_SIZE` characters, except that a single whitespace-delimited word longer
than `CHUNK_SIZE` becomes its own oversized chunk (any oversized chunk is one
of the document's words). -/
theorem loadPDF_chunk_size_bound (text c : List Char) (hc : c ∈ loadPDFChunks text) :
    c.length ≤ CHUNK_SIZE ∨ (CHUNK_SIZE < c.length ∧ c ∈ splitWs text) := by
  have h := chunkLoop_mem (splitWs text) (splitWs text) [] (fun w hw => hw)
    (Or.inl (by simp [CHUNK_SIZE])) c hc
  rcases h with h | h
  · exact Or.inl h
  · by_cases hlen : c.length ≤ CHUNK_SIZE
    · exact Or.inl hlen
    · exact Or.inr ⟨Nat.lt_of_not_le hlen, h⟩

theorem loadPDF_chunk_size_bound_witness :
    ['a', ' ', 'b'].length ≤ CHUNK_SIZE ∨
      (CHUNK_SIZE < ['a', ' ', 'b'].length ∧ ['a', ' ', 'b'] ∈ splitWs ['a', ' ', 'b']) :=
  loadPDF_chunk_size_bound ['a', ' ', 'b'] ['a', ' ', 'b'] (by decide)

/-- C2: joining the chunks of a document with a single space between
consecutive chunks reconstructs the document's whitespace-delimited token
sequence. -/
theorem loadPDF_chunks_reconstruct (text : List Char) :
    tokens (joinSp (loadPDFChunks text)) = tokens text := by
  unfold loadPDFChunks
  rw [chunkLoop_tokens (splitWs text) [] (wsFree_of_mem_splitWs text), tokens_nil,
    List.nil_append, filter_splitWs]

example : loadPDFChunks "hello world".data = ["hello world".data] := by decide
example : splitWs "  a  b ".data = ["".data, "a".data, "b".data, "".data] := by decide

-- ===== lexical retriever (lines 86–111) =====

/-- The punctuation class removed by `term.replace(/[.,?!;:()"']/g, "")`. -/
def isStrippedPunct (c : Char) : Bool :=
  c = '.' || c = ',' || c = '?' || c = '!' || c = ';' || c = ':' ||
  c = '(' || c = ')' || c = '"' || c = '\''

/-- `queryTerms` (lines 87–91): lower-case, split on whitespace, keep tokens
longer than 3 characters, then strip the punctuation class from each. -/
def queryTerms (query : List Char) : List (List Char) :=
  ((splitWs (query.map jsToLower)).filter (fun term => 3 < term.length)).map
    (fun term => term.filter (fun c => ¬ isStrippedPunct c))

/-- First alternative of the pattern that matches at this position (JS regex
alternation is ordered: the leftmost alternative wins even if shorter). -/
def firstAltMatch (alts : List (List Char)) (s : List Char) : Option (List Char) :=
  alts.find? (fun a => a.isPrefixOf s)

/-- Global scan of `str.match(regex)` with `g`: count successive leftmost
matches, resuming after each match (overlap-free); an empty match advances the
scan position by one, as JS does with `lastIndex++`.  The first argument is
the number of characters of a previous match still to be skipped. -/
def jsCountGo (alts : List (List Char)) : Nat → List Char → Nat
  | _, [] => if (firstAltMatch alts []).isSome then 1 else 0
  | n + 1, _ :: cs => jsCountGo alts n cs
  | 0, c :: cs =>
    match firstAltMatch alts (c :: cs) with
    | some [] => 1 + jsCountGo alts 0 cs
    | some (_ :: as) => 1 + jsCountGo alts as.length cs
    | none => jsCountGo alts 0 cs

/-- Number of matches of `chunkLower.match(new RegExp(term, "gi"))` (lines
99–101), for terms made of literal characters and top-level `|` alternation
(including the empty pattern, which matches at every position).  On that
fragment the model is exact.  Outside it the model is *not* faithful to JS:
the other metacharacters that survive the punctuation strip (`\ ^ $ * + [ ]`
and braces) are treated here as literal characters although JS gives them
regex semantics (e.g. `/a+bc/` matches `"aabc"`), and a term whose pattern
is an invalid regex (e.g. `"****"`) makes the real `RegExp` constructor throw
a `SyntaxError` — the real `retrieveRelevantContent` then throws and the
handler answers 500 — which a total function cannot represent.  Every
theorem about scoring therefore either restricts its query to
metacharacter-free terms (C3, C4) or uses only empty / `|` patterns where
the model is exact (C10, C3's counterexample). -/
def jsCountMatches (pat s : List Char) : Nat :=
  jsCountGo (fieldsP (fun c => c = '|') pat) 0 s

/-- Count of occurrences of a *literal* pattern under the same global
overlap-free left-to-right scan (the spec's reading of term matching). -/
def countLitGo (pat : List Char) : Nat → List Char → Nat
  | _, [] => if pat.isPrefixOf [] then 1 else 0
  | n + 1, _ :: cs => countLitGo pat n cs
  | 0, c :: cs =>
    if pat.isPrefixOf (c :: cs) then
      match pat with
      | [] => 1 + countLitGo pat 0 cs
      | _ :: ps => 1 + countLitGo pat ps.length cs
    else countLitGo pat 0 cs

def countLit (pat s : List Char) : Nat := countLitGo pat 0 s

/-- The score loop of `retrieveRelevantContent` (lines 95–104): lower-case the
chunk and add the match count of every query term (a `null` match result adds
nothing, i.e. adds zero). -/
def chunkScore (terms : List (List Char)) (chunk : List Char) : Nat :=
  terms.foldl (fun score term => score + jsCountMatches term (chunk.map jsToLower)) 0

/-- One step of the stable descending insertion modelling
`scoredChunks.sort((a, b) => b.score - a.score)` (JS `Array.prototype.sort` is
stable, so the result is the unique score-descending reordering keeping ties
in original order). -/
def insertScored (x : List Char × Nat) : List (List Char × Nat) → List (List Char × Nat)
  | [] => [x]
  | y :: ys => if y.2 ≤ x.2 then x :: y :: ys else y :: insertScored x ys

def sortScored : List (List Char × Nat) → List (List Char × Nat)
  | [] => []
  | x :: xs => insertScored x (sortScored xs)

/-- `retrieveRelevantContent` (lines 86–111). -/
def retrieveRelevantContent (query : List Char) (pdfChunks : List (List Char)) :
    List (List Char) :=
  if queryTerms query = [] then []
  else
    let scoredChunks := pdfChunks.map (fun chunk => (chunk, chunkScore (queryTerms query) chunk))
    (((sortScored (scoredChunks.filter (fun item => 0 < item.2))).take 3).map
      (fun item => item.1))

/-- The score formula claimed by the spec: sum over surviving tokens of the
count of *literal* substring matches in the lower-cased chunk (same global
scan semantics). -/
def claimScore (query chunk : List Char) : Nat :=
  ((queryTerms query).map (fun term => countLit term (chunk.map jsToLower))).sum

/-- The JS regex metacharacters (`RegExp` constructor syntax; `/` is ordinary
there).  The stripped punctuation class removes `. , ? ! ; : ( ) " '`, so of
these only `\ ^ $ | * + [ ] \x7b \x7d` can survive into a term. -/
def regexMetaChars : List Char :=
  ['\\', '^', '$', '.', '|', '?', '*', '+', '(', ')', '[', ']', '\x7b', '\x7d']

example : queryTerms "What is the vacation policy?".data =
    ["what".data, "vacation".data, "policy".data] := by decide
example : jsCountMatches "plan".data "planning plan".data = 2 := by decide
example : jsCountMatches [] "abc".data = 4 := by decide
example : jsCountMatches "ab|cd".data "ab".data = 1 := by decide
example : countLit "ab|cd".data "ab".data = 0 := by decide
example : countLit "aa".data "aaaa".data = 2 := by decide
example : retrieveRelevantContent "is it ok".data ["anything".data] = [] := by decide

-- ===== retriever lemmas =====

theorem fieldsP_of_no_sep (p : Char → Bool) {l : List Char} (h : ∀ c ∈ l, ¬ p c) :
    fieldsP p l = [l] := by
  induction l with
  | nil => rfl
  | cons c cs ih =>
    have hc : ¬ p c = true := h c (by simp)
    have : fieldsP p cs = [cs] := ih (fun ch hch => h ch (by simp [hch]))
    simp [fieldsP, hc, this]

/-- On a single-alternative (pipe-free) pattern the regex scan is the literal
substring scan. -/
theorem jsCountGo_singleton (pat : List Char) :
    ∀ (s : List Char) (n : Nat), jsCountGo [pat] n s = countLitGo pat n s := by
  intro s
  induction s with
  | nil =>
    intro n
    by_cases hp : pat.isPrefixOf [] <;>
      simp [jsCountGo, countLitGo, firstAltMatch, List.find?, hp]
  | cons c cs ih =>
    intro n
    cases n with
    | succ n => simp [jsCountGo, countLitGo, ih]
    | zero =>
      by_cases hp : pat.isPrefixOf (c :: cs)
      · cases pat with
        | nil => simp [jsCountGo, countLitGo, firstAltMatch, List.find?, hp, ih]
        | cons p ps => simp [jsCountGo, countLitGo, firstAltMatch, List.find?, hp, ih]
      · simp [jsCountGo, countLitGo, firstAltMatch, List.find?, hp, ih]

theorem jsCountMatches_eq_countLit {pat : List Char} (h : '|' ∉ pat) (s : List Char) :
    jsCountMatches pat s = countLit pat s := by
  unfold jsCountMatches countLit
  rw [fieldsP_of_no_sep _ (fun c hc => by simp; rintro rfl; exact h hc),
    jsCountGo_singleton]

/-- The empty pattern (e.g. a fully stripped term) matches at every scan
position: `chunkLower.match(new RegExp("", "gi")).length` is `length + 1`. -/
theorem jsCountMatches_nil (s : List Char) : jsCountMatches [] s = s.length + 1 := by
  have : ∀ t : List Char, jsCountGo [[]] 0 t = t.length + 1 := by
    intro t
    induction t with
    | nil => rfl
    | cons c cs ih =>
      simp [jsCountGo, firstAltMatch, List.find?, List.isPrefixOf, ih]
      omega
  exact this s

theorem insertScored_perm (x : List Char × Nat) (l : List (List Char × Nat)) :
    (insertScored x l).Perm (x :: l) := by
  induction l with
  | nil => exact List.Perm.refl _
  | cons y ys ih =>
    by_cases h : y.2 ≤ x.2
    · simp [insertScored, h]
    · simp only [insertScored, h, if_false]
      exact (ih.cons y).trans (List.Perm.swap x y ys)

theorem sortScored_perm (l : List (List Char × Nat)) : (sortScored l).Perm l := by
  induction l with
  | nil => exact List.Perm.refl _
  | cons x xs ih => exact (insertScored_perm x (sortScored xs)).trans (ih.cons x)

-- ===== C3 =====

/-- C3 (counterexample): the unescaped term is compiled as a *regex*, so a
term containing `|` is alternation, not a literal substring: for the query
`"ab|cd"` and the chunk `"ab"` the code scores 1 while the spec's literal
formula scores 0. -/
theorem chunkScore_regex_counterexample :
    chunkScore (queryTerms ['a', 'b', '|', 'c', 'd']) ['a', 'b'] ≠
      claimScore ['a', 'b', '|', 'c', 'd'] ['a', 'b'] := by decide

/-- C3 (amended): for queries whose surviving terms contain no JS regex
metacharacter, the score `retrieveRelevantContent` computes for a chunk equals
the sum, over the surviving terms, of the count of case-insensitive literal
substring matches in the chunk's lower-cased text under overlap-free
left-to-right global scan semantics. -/
theorem chunkScore_eq_claimScore (query chunk : List Char)
    (h : ∀ t ∈ queryTerms query, ∀ c ∈ t, c ∉ regexMetaChars) :
    chunkScore (queryTerms query) chunk = claimScore query chunk := by
  unfold chunkScore claimScore
  have main : ∀ (ts : List (List Char)), (∀ t ∈ ts, '|' ∉ t) → ∀ (a : Nat),
      ts.foldl (fun score term => score + jsCountMatches term (chunk.map jsToLower)) a =
        a + (ts.map (fun term => countLit term (chunk.map jsToLower))).sum := by
    intro ts
    induction ts with
    | nil => simp
    | cons t ts ih =>
      intro hts a
      simp only [List.foldl_cons, List.map_cons, List.sum_cons]
      rw [jsCountMatches_eq_countLit (hts t (by simp)),
        ih (fun v hv => hts v (by simp [hv])) _]
      omega
  rw [main _ (fun t ht hc => h t ht '|' hc (by decide)) 0, Nat.zero_add]

theorem chunkScore_eq_claimScore_witness :
    (∀ t ∈ queryTerms ['p', 'l', 'a', 'n'], ∀ c ∈ t, c ∉ regexMetaChars) ∧
      chunkScore (queryTerms ['p', 'l', 'a', 'n']) ['p', 'l', 'a', 'n', 's'] =
        claimScore ['p', 'l', 'a', 'n'] ['p', 'l', 'a', 'n', 's'] :=
  ⟨by decide, chunkScore_eq_claimScore ['p', 'l', 'a', 'n'] ['p', 'l', 'a', 'n', 's'] (by decide)⟩

-- ===== lower-casing preserves whitespace structure =====

theorem char_toNat_ofNat (n : Nat) (h : Nat.isValidChar n) : (Char.ofNat n).toNat = n := by
  simp only [Char.ofNat, dif_pos h, Char.ofNatAux, Char.toNat, UInt32.toNat]
  simp [BitVec.toNat_ofNatLt]

theorem isWs_toNat_le {d : Char} (hd : isWs d = true) : d.toNat ≤ 32 := by
  have hd' : d = ' ' ∨ d = '\t' ∨ d = '\n' ∨ d = '\r' ∨ d = '\x0b' ∨ d = '\x0c' := by
    simpa [isWs, or_assoc] using hd
  rcases hd' with rfl | rfl | rfl | rfl | rfl | rfl <;> decide

theorem isWs_jsToLower (c : Char) : isWs (jsToLower c) = isWs c := by
  unfold jsToLower
  by_cases h : 'A' ≤ c ∧ c ≤ 'Z'
  · rw [if_pos h]
    have h1 : 65 ≤ c.toNat := by simpa [Char.le_def] using h.1
    have h2 : c.toNat ≤ 90 := by simpa [Char.le_def] using h.2
    have ht : (Char.ofNat (c.toNat + 32)).toNat = c.toNat + 32 :=
      char_toNat_ofNat _ (Or.inl (by omega))
    have hc : isWs c = false := by
      cases hisc : isWs c
      · rfl
      · exact absurd (isWs_toNat_le hisc) (by omega)
    have hl : isWs (Char.ofNat (c.toNat + 32)) = false := by
      cases hisl : isWs (Char.ofNat (c.toNat + 32))
      · rfl
      · have := isWs_toNat_le hisl
        omega
    rw [hc, hl]
  · rw [if_neg h]

theorem fieldsP_map_pres (p : Char → Bool) (f : Char → Char)
    (hf : ∀ c, p (f c) = p c) (l : List Char) :
    fieldsP p (l.map f) = (fieldsP p l).map (List.map f) := by
  induction l with
  | nil => rfl
  | cons c cs ih =>
    simp only [List.map_cons, fieldsP, hf c]
    by_cases h : p c
    · simp [h, ih]
    · simp only [h, if_false, Bool.false_eq_true]
      rw [ih]
      cases hc : fieldsP p cs with
      | nil => exact absurd hc (fieldsP_ne_nil p cs)
      | cons g gs => simp

/-- Lower-casing commutes with `split(/\s+/)` (it maps no letter to
whitespace and no whitespace to a letter). -/
theorem splitWs_map_jsToLower (l : List Char) :
    splitWs (l.map jsToLower) = (splitWs l).map (List.map jsToLower) := by
  unfold splitWs
  rw [show fields (l.map jsToLower) = (fields l).map (List.map jsToLower) from
    fieldsP_map_pres isWs jsToLower isWs_jsToLower l]
  cases h : fields l with
  | nil => rfl
  | cons g gs =>
    cases gs with
    | nil => rfl
    | cons g2 gs2 =>
      show List.map jsToLower g ::
          (((List.map (List.map jsToLower) (g2 :: gs2)).dropLast.filter (fun w => w ≠ [])) ++
            [(List.map (List.map jsToLower) (g2 :: gs2)).getLastD []]) =
        List.map (List.map jsToLower)
          (g :: (((g2 :: gs2).dropLast.filter (fun w => w ≠ [])) ++ [(g2 :: gs2).getLastD []]))
      simp only [List.map_cons, List.map_append]
      congr 1
      congr 1
      · rw [← List.map_cons, ← List.map_dropLast, List.filter_map]
        congr 1
        apply List.filter_congr
        intro w _
        simp [Function.comp]
      · rw [← List.map_cons, List.getLastD_eq_getLast?, List.getLastD_eq_getLast?,
          List.getLast?_map]
        cases hg : (g2 :: gs2).getLast? with
        | none =>
          rw [List.getLast?_eq_getLast _ (by simp : g2 :: gs2 ≠ [])] at hg
          exact absurd hg (by simp)
        | some a => rfl

-- ===== C5 / C10 =====

/-- C5: when every whitespace-delimited token of the query is at most 3
characters long, retrieval returns the empty sequence whatever the chunks
are (the length filter leaves no term, and the code returns early). -/
theorem retrieveRelevantContent_short_tokens (query : List Char)
    (chunks : List (List Char)) (h : ∀ t ∈ splitWs query, t.length ≤ 3) :
    retrieveRelevantContent query chunks = [] := by
  have hq : queryTerms query = [] := by
    unfold queryTerms
    rw [splitWs_map_jsToLower]
    have : (((splitWs query).map (List.map jsToLower)).filter
        (fun term => 3 < term.length)) = [] := by
      rw [List.filter_eq_nil_iff]
      intro t ht
      rcases List.mem_map.1 ht with ⟨w, hw, rfl⟩
      simpa [List.length_map] using Nat.not_lt.2 (h w hw)
    rw [this]
    rfl
  simp [retrieveRelevantContent, hq]

theorem retrieveRelevantContent_short_tokens_witness :
    retrieveRelevantContent "is it ok".data ["ok is in this chunk".data] = [] :=
  retrieveRelevantContent_short_tokens "is it ok".data ["ok is in this chunk".data]
    (by decide)

/-- C10: a punctuation-only token longer than 3 characters (such as `"...."`)
survives the length filter, is stripped to the empty pattern, and that empty
pattern matches at every position of every chunk (`length + 1` matches), so
every chunk scores positively and retrieval returns a nonempty result even
though no meaningful term matched. -/
theorem retrieveRelevantContent_punct_only_token :
    queryTerms ['.', '.', '.', '.'] = [[]] ∧
      (∀ chunk : List Char,
        chunkScore (queryTerms ['.', '.', '.', '.']) chunk = chunk.length + 1) ∧
      (∀ chunks : List (List Char), chunks ≠ [] →
        retrieveRelevantContent ['.', '.', '.', '.'] chunks ≠ []) := by
  have hq : queryTerms ['.', '.', '.', '.'] = [[]] := by decide
  have hscore : ∀ chunk : List Char,
      chunkScore (queryTerms ['.', '.', '.', '.']) chunk = chunk.length + 1 := by
    intro chunk
    rw [hq]
    show 0 + jsCountMatches [] (chunk.map jsToLower) = chunk.length + 1
    rw [jsCountMatches_nil, List.length_map, Nat.zero_add]
  refine ⟨hq, hscore, ?_⟩
  intro chunks hne
  have hfil : (chunks.map (fun chunk =>
      (chunk, chunkScore (queryTerms ['.', '.', '.', '.']) chunk))).filter
        (fun item => 0 < item.2) =
      chunks.map (fun chunk =>
        (chunk, chunkScore (queryTerms ['.', '.', '.', '.']) chunk)) := by
    rw [List.filter_eq_self]
    intro a ha
    rcases List.mem_map.1 ha with ⟨c, _, rfl⟩
    simp [hscore c]
  have hrw : retrieveRelevantContent ['.', '.', '.', '.'] chunks =
      ((sortScored ((chunks.map (fun chunk =>
          (chunk, chunkScore (queryTerms ['.', '.', '.', '.']) chunk))).filter
            (fun item => 0 < item.2))).take 3).map (fun item => item.1) := by
    simp only [retrieveRelevantContent]
    rw [if_neg (by rw [hq]; simp)]
  intro hcon
  rw [hrw, hfil] at hcon
  have hlen := congrArg List.length hcon
  rw [List.length_map, List.length_take,
    (sortScored_perm _).length_eq, List.length_map] at hlen
  have hpos : 0 < chunks.length := List.length_pos.2 hne
  rw [Nat.min_def, List.length_nil] at hlen
  split at hlen <;> omega

-- ===== C4: ranking characterisation =====

/-- Stable descending insertion on index-tagged chunks, keyed by score; proof
device used to characterise the implementation's sort. -/
def insertE (key : List Char → Nat) (x : Nat × List Char) :
    List (Nat × List Char) → List (Nat × List Char)
  | [] => [x]
  | y :: ys => if key y.2 ≤ key x.2 then x :: y :: ys else y :: insertE key x ys

def sortE (key : List Char → Nat) : List (Nat × List Char) → List (Nat × List Char)
  | [] => []
  | x :: xs => insertE key x (sortE key xs)

/-- Strict ranking order: higher score first, ties by original position. -/
def rankLt (key : List Char → Nat) (p q : Nat × List Char) : Prop :=
  key q.2 < key p.2 ∨ (key p.2 = key q.2 ∧ p.1 < q.1)

theorem insertE_perm (key : List Char → Nat) (x : Nat × List Char)
    (l : List (Nat × List Char)) : (insertE key x l).Perm (x :: l) := by
  induction l with
  | nil => exact List.Perm.refl _
  | cons y ys ih =>
    by_cases h : key y.2 ≤ key x.2
    · simp [insertE, h]
    · simp only [insertE, h, if_false]
      exact (ih.cons y).trans (List.Perm.swap x y ys)

theorem sortE_perm (key : List Char → Nat) (l : List (Nat × List Char)) :
    (sortE key l).Perm l := by
  induction l with
  | nil => exact List.Perm.refl _
  | cons x xs ih => exact (insertE_perm key x (sortE key xs)).trans (ih.cons x)

theorem insertE_pairwise (key : List Char → Nat) (x : Nat × List Char) :
    ∀ l : List (Nat × List Char), l.Pairwise (rankLt key) →
      (∀ y ∈ l, x.1 < y.1) → (insertE key x l).Pairwise (rankLt key) := by
  intro l
  induction l with
  | nil => intro _ _; simp [insertE]
  | cons y ys ih =>
    intro hl hidx
    rcases List.pairwise_cons.1 hl with ⟨hy, hys⟩
    by_cases h : key y.2 ≤ key x.2
    · rw [insertE, if_pos h]
      refine List.pairwise_cons.2 ⟨?_, hl⟩
      intro z hz
      rcases List.mem_cons.1 hz with rfl | hz
      · rcases Nat.lt_or_ge (key z.2) (key x.2) with hlt | hge
        · exact Or.inl hlt
        · exact Or.inr ⟨Nat.le_antisymm hge h ▸ rfl, hidx z (List.mem_cons_self _ _)⟩
      · have hzle : key z.2 ≤ key y.2 := by
          rcases hy z hz with h1 | h1
          · exact Nat.le_of_lt h1
          · exact Nat.le_of_eq h1.1.symm
        rcases Nat.lt_or_ge (key z.2) (key x.2) with hlt | hge
        · exact Or.inl hlt
        · exact Or.inr ⟨Nat.le_antisymm (Nat.le_trans hzle h) hge |>.symm,
            hidx z (List.mem_cons_of_mem _ hz)⟩
    · rw [insertE, if_neg h]
      refine List.pairwise_cons.2 ⟨?_, ih hys (fun z hz => hidx z (List.mem_cons_of_mem _ hz))⟩
      intro z hz
      have hz' := (insertE_perm key x ys).mem_iff.1 hz
      rcases List.mem_cons.1 hz' with rfl | hz'
      · exact Or.inl (Nat.lt_of_not_le h)
      · exact hy z hz'

theorem sortE_pairwise (key : List Char → Nat) :
    ∀ l : List (Nat × List Char), l.Pairwise (fun p q => p.1 < q.1) →
      (sortE key l).Pairwise (rankLt key) := by
  intro l
  induction l with
  | nil => intro _; simp [sortE]
  | cons x xs ih =>
    intro hl
    rcases List.pairwise_cons.1 hl with ⟨hx, hxs⟩
    exact insertE_pairwise key x (sortE key xs) (ih hxs)
      (fun y hy => hx y ((sortE_perm key xs).mem_iff.1 hy))

theorem enumFrom_pairwise (xs : List (List Char)) :
    ∀ n : Nat, (List.enumFrom n xs).Pairwise (fun p q => p.1 < q.1) := by
  induction xs with
  | nil => intro n; simp
  | cons x xs ih =>
    intro n
    refine List.pairwise_cons.2 ⟨?_, ih (n + 1)⟩
    rintro ⟨i, c⟩ hq
    exact Nat.lt_of_succ_le (List.mem_enumFrom hq).1

/-- Forgetting the index tag turns the proof-device sort into the
implementation's sort (both compare only scores). -/
theorem insertE_map (qts : List (List Char)) (x : Nat × List Char)
    (l : List (Nat × List Char)) :
    (insertE (chunkScore qts) x l).map (fun p => (p.2, chunkScore qts p.2)) =
      insertScored (x.2, chunkScore qts x.2)
        (l.map (fun p => (p.2, chunkScore qts p.2))) := by
  induction l with
  | nil => rfl
  | cons y ys ih =>
    by_cases h : chunkScore qts y.2 ≤ chunkScore qts x.2
    · simp [insertE, insertScored, h]
    · simp [insertE, insertScored, h, ih]

theorem sortE_map (qts : List (List Char)) (l : List (Nat × List Char)) :
    (sortE (chunkScore qts) l).map (fun p => (p.2, chunkScore qts p.2)) =
      sortScored (l.map (fun p => (p.2, chunkScore qts p.2))) := by
  induction l with
  | nil => rfl
  | cons x xs ih => rw [sortE, List.map_cons, sortScored, insertE_map, ih]

/-- Pipeline lemma: the embedded filter/sort/slice pipeline returns the
take-3 of the unique reordering of the positively-scored chunks sorted by the
*embedded* score, descending, ties in original index order (`ranked` is fully
determined since `rankLt` is a strict total order on distinct indices).  This
is stated with `chunkScore`, whose regex model is only faithful on the
literal-plus-`|` fragment; claim C4 instantiates it on the metachar-free
domain where the score provably is the literal formula. -/
theorem sortScored_pipeline_ranked (query : List Char)
    (chunks : List (List Char)) :
    ∃ ranked : List (Nat × List Char),
      ranked.Perm (chunks.enum.filter
        (fun p => 0 < chunkScore (queryTerms query) p.2)) ∧
      ranked.Pairwise (rankLt (chunkScore (queryTerms query))) ∧
      retrieveRelevantContent query chunks = (ranked.take 3).map (fun p => p.2) := by
  refine ⟨sortE (chunkScore (queryTerms query))
    (chunks.enum.filter (fun p => 0 < chunkScore (queryTerms query) p.2)), ?_, ?_, ?_⟩
  · exact sortE_perm _ _
  · exact sortE_pairwise _ _ ((enumFrom_pairwise chunks 0).filter _)
  · by_cases hq : queryTerms query = []
    · have hfil : chunks.enum.filter
          (fun p => 0 < chunkScore (queryTerms query) p.2) = [] := by
        rw [List.filter_eq_nil_iff]
        intro a _
        rw [hq]
        simp [chunkScore]
      rw [hfil]
      simp [retrieveRelevantContent, hq, sortE]
    · have hrw : retrieveRelevantContent query chunks =
          ((sortScored ((chunks.map (fun chunk =>
            (chunk, chunkScore (queryTerms query) chunk))).filter
              (fun item => 0 < item.2))).take 3).map (fun item => item.1) := by
        simp only [retrieveRelevantContent]
        rw [if_neg hq]
      rw [hrw]
      have hscored : (chunks.map (fun chunk =>
          (chunk, chunkScore (queryTerms query) chunk))).filter
            (fun item => 0 < item.2) =
          (chunks.enum.filter (fun p => 0 < chunkScore (queryTerms query) p.2)).map
            (fun p => (p.2, chunkScore (queryTerms query) p.2)) := by
        have h1 : chunks.map (fun chunk => (chunk, chunkScore (queryTerms query) chunk)) =
            chunks.enum.map (fun p => (p.2, chunkScore (queryTerms query) p.2)) := by
          conv_rhs => rw [show (fun p : Nat × List Char =>
              (p.2, chunkScore (queryTerms query) p.2)) =
            ((fun c => (c, chunkScore (queryTerms query) c)) ∘ Prod.snd) from rfl]
          rw [← List.map_map, List.enum_map_snd]
        rw [h1, List.filter_map]
        rfl
      rw [hscored, ← sortE_map, ← List.map_take, List.map_map]
      rfl

/-- C4 (counterexample): the claim fails as universally stated, because a
surviving term is compiled as an *unescaped* regex.  For the query `"ab|cd"`
and the single chunk `"ab"`, the chunk's score in the claim's sense (count of
literal substring matches of each surviving token, cf. C3) is 0, yet the
program returns that chunk: `/ab|cd/gi` is alternation and matches `"ab"`
once.  So the result is not "exactly the chunks with score > 0".  (A second,
unrepresentable failure mode exists: a term such as `"****"` makes the
`RegExp` constructor throw a `SyntaxError`, so the real function throws — the
handler answers 500 — instead of returning any list at all.) -/
theorem retrieveRelevantContent_ranked_top3_counterexample :
    claimScore ['a', 'b', '|', 'c', 'd'] ['a', 'b'] = 0 ∧
      retrieveRelevantContent ['a', 'b', '|', 'c', 'd'] [['a', 'b']] = [['a', 'b']] := by
  decide

/-- C4 (amended): for every query whose surviving terms contain no JS regex
metacharacter — so each term's regex is a valid literal pattern —
`retrieveRelevantContent` returns exactly the chunks with positive score
(score = the literal-substring-count formula, as in C3), ordered by score
descending with ties kept in original document order (stable sort), truncated
to at most the first 3 entries. -/
theorem retrieveRelevantContent_ranked_top3 (query : List Char)
    (chunks : List (List Char))
    (h : ∀ t ∈ queryTerms query, ∀ c ∈ t, c ∉ regexMetaChars) :
    ∃ ranked : List (Nat × List Char),
      ranked.Perm (chunks.enum.filter (fun p => 0 < claimScore query p.2)) ∧
      ranked.Pairwise (rankLt (claimScore query)) ∧
      retrieveRelevantContent query chunks = (ranked.take 3).map (fun p => p.2) := by
  obtain ⟨ranked, hperm, hpair, hres⟩ := sortScored_pipeline_ranked query chunks
  have hkey : ∀ c : List Char, chunkScore (queryTerms query) c = claimScore query c :=
    fun c => chunkScore_eq_claimScore query c h
  refine ⟨ranked, ?_, ?_, hres⟩
  · have hfil : chunks.enum.filter (fun p => 0 < chunkScore (queryTerms query) p.2) =
        chunks.enum.filter (fun p => 0 < claimScore query p.2) := by
      apply List.filter_congr
      intro p _
      rw [hkey p.2]
    exact hfil ▸ hperm
  · refine hpair.imp ?_
    intro p q hpq
    unfold rankLt at hpq ⊢
    rw [← hkey p.2, ← hkey q.2]
    exact hpq

theorem retrieveRelevantContent_ranked_top3_witness :
    ∃ ranked : List (Nat × List Char),
      ranked.Perm ([['p', 'l', 'a', 'n', 's'], ['x']].enum.filter
        (fun p => 0 < claimScore ['p', 'l', 'a', 'n'] p.2)) ∧
      ranked.Pairwise (rankLt (claimScore ['p', 'l', 'a', 'n'])) ∧
      retrieveRelevantContent ['p', 'l', 'a', 'n'] [['p', 'l', 'a', 'n', 's'], ['x']] =
        (ranked.take 3).map (fun p => p.2) :=
  retrieveRelevantContent_ranked_top3 ['p', 'l', 'a', 'n']
    [['p', 'l', 'a', 'n', 's'], ['x']] (by decide)

theorem retrieveRelevantContent_punct_only_token_witness :
    retrieveRelevantContent ['.', '.', '.', '.'] [['x']] ≠ [] :=
  retrieveRelevantContent_punct_only_token.2.2 [['x']] (by decide)

-- ===== the /chat handler (lines 114–177) =====

inductive Role where
  | system
  | user
  | assistant
deriving DecidableEq

structure ChatMessage where
  role : Role
  content : List Char
deriving DecidableEq

/-- The `message` field of the request body: absent (`undefined`), present
but not a JSON string, or a string.  `!userMessage || typeof userMessage !==
"string"` rejects the first two and the empty string. -/
inductive ReqMessage where
  | absent
  | nonString
  | str (s : List Char)
deriving DecidableEq

/-- A `/chat` request body.  `none` models an absent optional field (`??` and
`||` defaulting in lines 117–119). -/
structure Request where
  message : ReqMessage
  useRAG : Option Bool
  sessionId : Option (List Char)
  mode : Option (List Char)
deriving DecidableEq

/-- The three observable HTTP outcomes: 400 invalid input, 200 success with
reply and sources, 500 downstream failure (the catch block, lines 169–176). -/
inductive Response where
  | invalidInput
  | success (reply : List Char) (sources : List (List Char))
  | failure
deriving DecidableEq

/-- Process-wide mutable state: the PDF text/chunk cache (lines 56–57) and
the per-session memories (line 40), histories stored as (user, assistant)
turn pairs in insertion order. -/
structure ServerState where
  pdfText : Option (List Char)
  pdfChunks : List (List Char)
  sessions : List (List Char × List (List Char × List Char))
deriving DecidableEq

def findSession (sessions : List (List Char × List (List Char × List Char)))
    (sid : List Char) : Option (List (List Char × List Char)) :=
  match sessions with
  | [] => none
  | (k, v) :: rest => if k = sid then some v else findSession rest sid

/-- The turn history of a session (empty when the session does not exist). -/
def historyOf (st : ServerState) (sid : List Char) : List (List Char × List Char) :=
  (findSession st.sessions sid).getD []

/-- `getSessionMemory` (lines 43–53): create an empty memory on first use. -/
def ensureSession (st : ServerState) (sid : List Char) : ServerState :=
  match findSession st.sessions sid with
  | some _ => st
  | none => { st with sessions := st.sessions ++ [(sid, [])] }

def updateSession (sessions : List (List Char × List (List Char × List Char)))
    (sid userMessage reply : List Char) :
    List (List Char × List (List Char × List Char)) :=
  match sessions with
  | [] => []
  | (k, v) :: rest =>
    if k = sid then (k, v ++ [(userMessage, reply)]) :: rest
    else (k, v) :: updateSession rest sid userMessage reply

/-- `memory.saveContext({input}, {output})` (line 166): append one turn. -/
def appendTurn (st : ServerState) (sid userMessage reply : List Char) : ServerState :=
  { st with sessions := updateSession st.sessions sid userMessage reply }

/-- `memoryVars.chat_history`: the stored turns as alternating user/assistant
messages in insertion order (`BufferMemory` with `returnMessages: true`). -/
def historyMessages (st : ServerState) (sid : List Char) : List ChatMessage :=
  ((historyOf st sid).map (fun t => [ChatMessage.mk .user t.1,
    ChatMessage.mk .assistant t.2])).flatten

/-- `loadPDF` (lines 60–84).  The PDF file is an oracle (`none` = the file
does not exist).  A JS-truthy (nonempty) cached `pdfText` returns at once; a
missing file returns the sentinel `"PDF not found."` without touching state;
otherwise the text is cached and its chunks appended to the chunk list. -/
def loadPDF (st : ServerState) (pdfFile : Option (List Char)) :
    ServerState × List Char :=
  if st.pdfText.getD [] ≠ [] then (st, st.pdfText.getD [])
  else
    match pdfFile with
    | none => (st, "PDF not found.".data)
    | some text =>
      ({ st with pdfText := some text, pdfChunks := st.pdfChunks ++ loadPDFChunks text },
        text)

def groundedPromptPre : List Char :=
  ("You are a helpful assistant for Contoso Electronics. You must ONLY use the information provided below to answer.\n\n--- EMPLOYEE HANDBOOK EXCERPTS ---\n").data

def groundedPromptPost : List Char := ("\n--- END OF EXCERPTS ---").data

def refusalPrompt : List Char :=
  ("You are a helpful assistant for Contoso Electronics. The excerpts do not contain relevant information for this question. Reply politely: \"I\x27m sorry, I don\x27t know. The employee handbook does not contain information about that.\"").data

def genericPrompt : List Char :=
  ("You are a helpful and knowledgeable assistant. Answer the user\x27s questions concisely and informatively.").data

/-- The system prompt (lines 144–156): grounded prompt with the sources
joined by blank lines when RAG found chunks, fixed refusal prompt when it
found none, generic prompt when RAG is off. -/
def composeSystem (useRAG : Bool) (sources : List (List Char)) : ChatMessage :=
  if useRAG then
    if 0 < sources.length then
      ChatMessage.mk .system
        (groundedPromptPre ++ List.intercalate "\n\n".data sources ++ groundedPromptPost)
    else ChatMessage.mk .system refusalPrompt
  else ChatMessage.mk .system genericPrompt

/-- `req.body.message` validation (line 121): present, a string and
JS-truthy (nonempty). -/
def validMessage : ReqMessage → Option (List Char)
  | .str s => if s = [] then none else some s
  | _ => none

/-- `req.body.sessionId || "default"` (line 118): `""` is falsy. -/
def resolveSessionId : Option (List Char) → List Char
  | none => "default".data
  | some s => if s = [] then "default".data else s

/-- `req.body.mode || "basic"` (line 119). -/
def resolveMode : Option (List Char) → List Char
  | none => "basic".data
  | some m => if m = [] then "basic".data else m

/-- The outcome of the whole request: final state, HTTP response, and the
effect trace (`modelCalled` = messages passed to `chatModel.invoke`, `none`
if never reached; `agentCalled` = (sessionId, message) passed to
`agentService.processMessage`). -/
structure HandlerResult where
  state : ServerState
  response : Response
  modelCalled : Option (List ChatMessage)
  agentCalled : Option (List Char × List Char)
deriving DecidableEq

/-- The `/chat` handler (lines 114–177).  The external chat model and agent
service are oracles: `chatOutcome` / `agentOutcome` give the result their
call would produce (`Except.error` = the awaited promise rejects, landing in
the catch block).  The PDF file oracle is threaded to `loadPDF`. -/
def handler (st : ServerState) (req : Request) (pdfFile : Option (List Char))
    (chatOutcome agentOutcome : Except (List Char) (List Char)) : HandlerResult :=
  match validMessage req.message with
  | none => ⟨st, .invalidInput, none, none⟩
  | some userMessage =>
    let sessionId := resolveSessionId req.sessionId
    let st1 := ensureSession st sessionId
    let chatHistory := historyMessages st1 sessionId
    let ragStep : ServerState × List (List Char) :=
      if req.useRAG.getD true then
        let st2 := (loadPDF st1 pdfFile).1
        (st2, retrieveRelevantContent userMessage st2.pdfChunks)
      else (st1, [])
    if resolveMode req.mode = "agent".data then
      match agentOutcome with
      | .ok reply => ⟨ragStep.1, .success reply [], none, some (sessionId, userMessage)⟩
      | .error _ => ⟨ragStep.1, .failure, none, some (sessionId, userMessage)⟩
    else
      let systemMessage := composeSystem (req.useRAG.getD true) ragStep.2
      let messages := systemMessage :: chatHistory ++ [ChatMessage.mk .user userMessage]
      match chatOutcome with
      | .ok reply =>
        ⟨appendTurn ragStep.1 sessionId userMessage reply,
          .success reply ragStep.2, some messages, none⟩
      | .error _ => ⟨ragStep.1, .failure, some messages, none⟩

-- ===== C7 / C6 =====

/-- C7: a missing, non-string or empty `message` is rejected immediately with
the 400 response: the state is untouched (no session created, no PDF load, no
retrieval) and neither the chat model nor the agent is called. -/
theorem handler_invalid_message (st : ServerState) (req : Request)
    (pdfFile : Option (List Char))
    (chatOutcome agentOutcome : Except (List Char) (List Char))
    (h : req.message = .absent ∨ req.message = .nonString ∨ req.message = .str []) :
    handler st req pdfFile chatOutcome agentOutcome = ⟨st, .invalidInput, none, none⟩ := by
  have hv : validMessage req.message = none := by
    rcases h with h | h | h <;> rw [h] <;> rfl
  unfold handler
  rw [hv]

theorem handler_invalid_message_witness :
    handler ⟨none, [], []⟩ ⟨.nonString, some true, none, none⟩ none
        (Except.ok "r".data) (Except.ok "r".data) =
      ⟨⟨none, [], []⟩, .invalidInput, none, none⟩ :=
  handler_invalid_message _ _ _ _ _ (Or.inr (Or.inl rfl))

/-- C6: in agent mode the handler answers from the agent capability alone:
the response is the agent's reply with an always-empty sources list (or the
uniform failure if the agent call fails), independent of the RAG flag, the
document and any retrieval outcome; the chat model is never invoked (so no
system or history message is composed), and the agent receives the raw user
message. -/
theorem handler_agent_mode (st : ServerState) (req : Request)
    (pdfFile : Option (List Char))
    (chatOutcome agentOutcome : Except (List Char) (List Char))
    (userMessage : List Char) (hm : validMessage req.message = some userMessage)
    (hmode : resolveMode req.mode = "agent".data) :
    (handler st req pdfFile chatOutcome agentOutcome).response =
      (match agentOutcome with
        | .ok reply => Response.success reply []
        | .error _ => Response.failure) ∧
    (handler st req pdfFile chatOutcome agentOutcome).modelCalled = none ∧
    (handler st req pdfFile chatOutcome agentOutcome).agentCalled =
      some (resolveSessionId req.sessionId, userMessage) := by
  cases agentOutcome <;> simp [handler, hm, hmode]

theorem handler_agent_mode_witness :
    (handler ⟨none, [], []⟩ ⟨.str "hi".data, some true, none, some "agent".data⟩ none
        (Except.ok "x".data) (Except.ok "y".data)).response =
      (match (Except.ok "y".data : Except (List Char) (List Char)) with
        | .ok reply => Response.success reply []
        | .error _ => Response.failure) ∧
    (handler ⟨none, [], []⟩ ⟨.str "hi".data, some true, none, some "agent".data⟩ none
        (Except.ok "x".data) (Except.ok "y".data)).modelCalled = none ∧
    (handler ⟨none, [], []⟩ ⟨.str "hi".data, some true, none, some "agent".data⟩ none
        (Except.ok "x".data) (Except.ok "y".data)).agentCalled =
      some (resolveSessionId (none : Option (List Char)), "hi".data) :=
  handler_agent_mode _ _ _ _ _ "hi".data (by decide) (by decide)

-- ===== session-memory lemmas =====

theorem findSession_append_single (l : List (List Char × List (List Char × List Char)))
    (sid x : List Char) :
    findSession (l ++ [(sid, [])]) x =
      (match findSession l x with
        | some v => some v
        | none => if sid = x then some [] else none) := by
  induction l with
  | nil =>
    show (if sid = x then some [] else none) = _
    rfl
  | cons kv rest ih =>
    obtain ⟨k, v⟩ := kv
    by_cases h : k = x <;> simp [findSession, h, ih]

theorem historyOf_ensureSession (st : ServerState) (sid x : List Char) :
    historyOf (ensureSession st sid) x = historyOf st x := by
  unfold ensureSession historyOf
  cases hf : findSession st.sessions sid with
  | some v => rfl
  | none =>
    show (findSession (st.sessions ++ [(sid, [])]) x).getD [] = _
    rw [findSession_append_single]
    cases hx : findSession st.sessions x with
    | some v => rfl
    | none =>
      by_cases h : sid = x
      · simp [h]
      · simp [h]

theorem findSession_ensureSession_self (st : ServerState) (sid : List Char) :
    findSession (ensureSession st sid).sessions sid = some (historyOf st sid) := by
  unfold ensureSession historyOf
  cases hf : findSession st.sessions sid with
  | some v => simp [hf]
  | none =>
    show findSession (st.sessions ++ [(sid, [])]) sid = _
    rw [findSession_append_single, hf]
    simp

theorem findSession_updateSession (l : List (List Char × List (List Char × List Char)))
    (sid m r x : List Char) :
    findSession (updateSession l sid m r) x =
      (if x = sid then (findSession l sid).map (fun v => v ++ [(m, r)])
        else findSession l x) := by
  induction l with
  | nil => by_cases h : x = sid <;> simp [updateSession, findSession, h]
  | cons kv rest ih =>
    obtain ⟨k, v⟩ := kv
    by_cases hk : k = sid
    · subst hk
      by_cases hx : x = k
      · subst hx
        simp [updateSession, findSession]
      · have hkx : ¬ k = x := fun hcon => hx hcon.symm
        simp [updateSession, findSession, hx, hkx]
    · by_cases hx : k = x
      · subst hx
        have hxs : ¬ k = sid := hk
        simp [updateSession, findSession, hk, hxs]
      · simp [updateSession, findSession, hk, hx, ih]

theorem ensureSession_pdfText (st : ServerState) (sid : List Char) :
    (ensureSession st sid).pdfText = st.pdfText := by
  unfold ensureSession
  cases findSession st.sessions sid <;> rfl

theorem ensureSession_pdfChunks (st : ServerState) (sid : List Char) :
    (ensureSession st sid).pdfChunks = st.pdfChunks := by
  unfold ensureSession
  cases findSession st.sessions sid <;> rfl

theorem loadPDF_sessions (st : ServerState) (f : Option (List Char)) :
    (loadPDF st f).1.sessions = st.sessions := by
  unfold loadPDF
  split
  · rfl
  · cases f <;> rfl

theorem appendTurn_pdfText (st : ServerState) (sid m r : List Char) :
    (appendTurn st sid m r).pdfText = st.pdfText := rfl

theorem appendTurn_pdfChunks (st : ServerState) (sid m r : List Char) :
    (appendTurn st sid m r).pdfChunks = st.pdfChunks := rfl

/-- `loadPDF` on a missing file with an untruthy cache: sentinel return, no
state change, no exception (modelled by totality). -/
theorem loadPDF_absent {st : ServerState} (h : st.pdfText = none) :
    loadPDF st none = (st, "PDF not found.".data) := by
  simp [loadPDF, h]

theorem retrieveRelevantContent_nil (query : List Char) :
    retrieveRelevantContent query [] = [] := by
  by_cases h : queryTerms query = [] <;> simp [retrieveRelevantContent, h, sortScored]

-- ===== C8 =====

/-- One request's worth of oracle inputs. -/
structure TurnInput where
  req : Request
  pdfFile : Option (List Char)
  chatOutcome : Except (List Char) (List Char)
  agentOutcome : Except (List Char) (List Char)

/-- Run a sequence of requests through the handler, threading the state. -/
def runTurns (st : ServerState) : List TurnInput → ServerState
  | [] => st
  | t :: ts => runTurns (handler st t.req t.pdfFile t.chatOutcome t.agentOutcome).state ts

/-- What one request appends to the history of session `x`: exactly one
(user, assistant) pair when the message is valid, the request resolves to
session `x`, the mode is not `"agent"` and the model call succeeds; nothing
otherwise. -/
def turnAppend (x : List Char) (req : Request)
    (chatOutcome : Except (List Char) (List Char)) : List (List Char × List Char) :=
  match validMessage req.message with
  | none => []
  | some m =>
    if resolveSessionId req.sessionId = x ∧ resolveMode req.mode ≠ "agent".data then
      match chatOutcome with
      | .ok r => [(m, r)]
      | .error _ => []
    else []

theorem findSession_ensureSession_getD (st : ServerState) (sid x : List Char) :
    (findSession (ensureSession st sid).sessions x).getD [] =
      (findSession st.sessions x).getD [] :=
  historyOf_ensureSession st sid x

/-- Single-request history effect. -/
theorem handler_historyOf (st : ServerState) (req : Request)
    (pdfFile : Option (List Char))
    (chatOutcome agentOutcome : Except (List Char) (List Char)) (x : List Char) :
    historyOf (handler st req pdfFile chatOutcome agentOutcome).state x =
      historyOf st x ++ turnAppend x req chatOutcome := by
  unfold handler turnAppend
  cases hv : validMessage req.message with
  | none => simp
  | some m =>
    have hsess : ∀ useRAG : Bool,
        (if useRAG then
          let st2 := (loadPDF (ensureSession st (resolveSessionId req.sessionId)) pdfFile).1
          (st2, retrieveRelevantContent m st2.pdfChunks)
        else (ensureSession st (resolveSessionId req.sessionId), [])).1.sessions =
        (ensureSession st (resolveSessionId req.sessionId)).sessions := by
      intro useRAG
      cases useRAG
      · rfl
      · simp [loadPDF_sessions]
    by_cases hmode : resolveMode req.mode = ['a', 'g', 'e', 'n', 't']
    · cases agentOutcome <;>
        simp [hmode, historyOf, hsess, findSession_ensureSession_getD]
    · cases chatOutcome with
      | error e =>
        simp [hmode, historyOf, hsess, findSession_ensureSession_getD]
      | ok r =>
        by_cases hx : resolveSessionId req.sessionId = x
        · subst hx
          simp [hmode, appendTurn, historyOf, findSession_updateSession, hsess,
            findSession_ensureSession_self]
        · have hx' : ¬ x = resolveSessionId req.sessionId := fun hcon => hx hcon.symm
          simp [hmode, hx, hx', appendTurn, historyOf, findSession_updateSession, hsess,
            findSession_ensureSession_getD]

/-- C8: session memory is append-only and updated only on success: running
any request sequence, a session's history is its initial history followed by
exactly one (user, assistant) pair per successful non-agent turn addressed to
it, in chronological order; failed or invalid or agent-mode turns contribute
nothing (the append happens only after the model call returns). -/
theorem handler_memory_append_only (st : ServerState) (ts : List TurnInput)
    (sid : List Char) :
    historyOf (runTurns st ts) sid =
      historyOf st sid ++
        (ts.map (fun t => turnAppend sid t.req t.chatOutcome)).flatten := by
  induction ts generalizing st with
  | nil => simp [runTurns]
  | cons t ts ih =>
    rw [runTurns, ih, handler_historyOf, List.map_cons, List.flatten_cons,
      List.append_assoc]

-- ===== C9 =====

/-- C9: with the document file absent and an empty cache, a `useRAG = true`
request still succeeds: `loadPDF` returns the `"PDF not found."` sentinel
without changing state (instead of throwing), the chunk list stays empty,
retrieval yields no sources, the response carries `sources = []`, and the
system prompt sent to the model is the fixed refusal prompt. -/
theorem handler_missing_document (st : ServerState) (req : Request)
    (agentOutcome : Except (List Char) (List Char)) (userMessage reply : List Char)
    (hpdf : st.pdfText = none) (hch : st.pdfChunks = [])
    (hm : validMessage req.message = some userMessage)
    (hrag : req.useRAG.getD true = true)
    (hmode : resolveMode req.mode ≠ "agent".data) :
    loadPDF st none = (st, "PDF not found.".data) ∧
    (handler st req none (.ok reply) agentOutcome).state.pdfChunks = [] ∧
    (handler st req none (.ok reply) agentOutcome).response = .success reply [] ∧
    (handler st req none (.ok reply) agentOutcome).modelCalled =
      some (ChatMessage.mk .system refusalPrompt ::
        historyMessages (ensureSession st (resolveSessionId req.sessionId))
          (resolveSessionId req.sessionId) ++
        [ChatMessage.mk .user userMessage]) := by
  have hmode' : ¬ resolveMode req.mode = ['a', 'g', 'e', 'n', 't'] := by
    simpa using hmode
  have hload : loadPDF (ensureSession st (resolveSessionId req.sessionId)) none =
      (ensureSession st (resolveSessionId req.sessionId), "PDF not found.".data) :=
    loadPDF_absent (by rw [ensureSession_pdfText]; exact hpdf)
  have hchunks1 : (ensureSession st (resolveSessionId req.sessionId)).pdfChunks = [] := by
    rw [ensureSession_pdfChunks]; exact hch
  refine ⟨loadPDF_absent hpdf, ?_, ?_, ?_⟩ <;>
    simp [handler, hm, hrag, hmode', hload, hchunks1, retrieveRelevantContent_nil,
      appendTurn_pdfChunks, composeSystem]

theorem handler_missing_document_witness :
    loadPDF ⟨none, [], []⟩ none = (⟨none, [], []⟩, "PDF not found.".data) ∧
    (handler ⟨none, [], []⟩ ⟨.str ['h', 'i'], some true, none, none⟩ none
        (.ok ['o', 'k']) (.ok ['a'])).state.pdfChunks = [] ∧
    (handler ⟨none, [], []⟩ ⟨.str ['h', 'i'], some true, none, none⟩ none
        (.ok ['o', 'k']) (.ok ['a'])).response = .success ['o', 'k'] [] ∧
    (handler ⟨none, [], []⟩ ⟨.str ['h', 'i'], some true, none, none⟩ none
        (.ok ['o', 'k']) (.ok ['a'])).modelCalled =
      some (ChatMessage.mk .system refusalPrompt ::
        historyMessages (ensureSession ⟨none, [], []⟩ (resolveSessionId none))
          (resolveSessionId none) ++
        [ChatMessage.mk .user ['h', 'i']]) :=
  handler_missing_document ⟨none, [], []⟩ ⟨.str ['h', 'i'], some true, none, none⟩
    (.ok ['a']) ['h', 'i'] ['o', 'k'] rfl rfl rfl rfl (by decide)
